import Mathlib

/-!
Verification of the polyomino region-packing solver (day_twelve.py).

The Python functions are shallowly embedded as Lean definitions:

* a cell set is a `Finset (Int × Int)` (Python frozensets of (row, col) pairs);
* the mutable occupancy grid is threaded explicitly as the `Finset` of its
  occupied cells (`grid[r][c] = True` corresponds to `(r, c)` being a member);
* Python exceptions (`ValueError` from `max()` on an empty sequence,
  `KeyError` from a missing dict key, `IndexError` from indexing an empty
  list) are modelled by `Option`, with `none` meaning the computation raises
  and produces no result;
* the dict `all_orientations` is modelled as a function
  `Nat → Option (List (Finset (Int × Int)))` (`none` = key absent);
* `get_all_orientations` builds a Python `set` and returns its elements as a
  list in unspecified hash order; it is modelled by the `Finset` of its
  elements.
-/

namespace DayTwelve

/-- A grid cell, a pair (row, column) of integers, matching the Python tuples. -/
abbrev Cell := Int × Int

/-- Minimum row index of a cell set (Python `min(r for r, c in coords)`);
defaults to 0 on the empty set, where the Python expression would raise. -/
def minRow (s : Finset Cell) : Int :=
  if h : (s.image Prod.fst).Nonempty then (s.image Prod.fst).min' h else 0

/-- Minimum column index of a cell set. -/
def minCol (s : Finset Cell) : Int :=
  if h : (s.image Prod.snd).Nonempty then (s.image Prod.snd).min' h else 0

/-- Maximum row index of a cell set (Python `max(r for r, c in orientation)`);
defaults to 0 on the empty set, where the Python expression would raise. -/
def maxRow (s : Finset Cell) : Int :=
  if h : (s.image Prod.fst).Nonempty then (s.image Prod.fst).max' h else 0

/-- Maximum column index of a cell set. -/
def maxCol (s : Finset Cell) : Int :=
  if h : (s.image Prod.snd).Nonempty then (s.image Prod.snd).max' h else 0

/-- Python `normalize`: translate the set so its minimum row and minimum
column are both 0; the empty set normalizes to itself. -/
def normalize (coords : Finset Cell) : Finset Cell :=
  if coords.Nonempty then
    coords.image (fun p => (p.1 - minRow coords, p.2 - minCol coords))
  else ∅

/-- Python `rotate_90`: rotate 90 degrees clockwise, (r, c) to (c, -r). -/
def rotate_90 (coords : Finset Cell) : Finset Cell :=
  coords.image (fun p => (p.2, -p.1))

/-- Python `flip_horizontal`: mirror across the vertical axis, (r, c) to (r, -c). -/
def flip_horizontal (coords : Finset Cell) : Finset Cell :=
  coords.image (fun p => (p.1, -p.2))

/-- The loop of `get_all_orientations` with `n` iterations remaining: record
the normalized current set and the normalized horizontal mirror, then rotate
the current set 90 degrees clockwise and continue. -/
def orientationsAux : Nat → Finset Cell → Finset (Finset Cell)
  | 0, _ => ∅
  | n + 1, cur =>
      insert (normalize cur)
        (insert (normalize (flip_horizontal cur)) (orientationsAux n (rotate_90 cur)))

/-- Python `get_all_orientations`: four iterations of the rotate loop.  The
Python function returns `list(orientations)` whose element order is
unspecified hash order, so it is modelled by the set of its elements. -/
def get_all_orientations (coords : Finset Cell) : Finset (Finset Cell) :=
  orientationsAux 4 coords

/-- Iterated clockwise rotation, used to state properties of the dihedral
orbit generated by the orientation loop. -/
def rotIter : Nat → Finset Cell → Finset Cell
  | 0, s => s
  | k + 1, s => rotIter k (rotate_90 s)

/-- The absolute cells covered by an orientation anchored at (sr, sc). -/
def offsets (ori : Finset Cell) (sr sc : Int) : Finset Cell :=
  ori.image (fun p => (sr + p.1, sc + p.2))

/-- A coordinate lies inside the height x width grid. -/
abbrev inBounds (width height : Nat) (p : Cell) : Prop :=
  0 ≤ p.1 ∧ p.1 < (height : Int) ∧ 0 ≤ p.2 ∧ p.2 < (width : Int)

/-- Python `can_place`: every cell of the orientation, offset by the anchor,
must lie within the grid bounds and land on an unoccupied grid cell. -/
def can_place (width height : Nat) (grid ori : Finset Cell) (sr sc : Int) : Bool :=
  decide (∀ p ∈ ori, inBounds width height (sr + p.1, sc + p.2) ∧ (sr + p.1, sc + p.2) ∉ grid)

/-- Python `place_shape`: set every cell of the placed orientation to occupied
(insert into the occupied set) or unoccupied (remove from it). -/
def place_shape (grid ori : Finset Cell) (sr sc : Int) (occupied : Bool) : Finset Cell :=
  if occupied then grid ∪ offsets ori sr sc else grid \ offsets ori sr sc

/-- Python `range(n)` for an integer bound, as a list of integers;
empty when the bound is not positive. -/
def intRange (n : Int) : List Int := (List.range n.toNat).map Int.ofNat

/-- The anchor rows the solver tries for an orientation:
Python `range(height - max_r)`. -/
def anchorRows (height : Nat) (ori : Finset Cell) : List Int :=
  intRange ((height : Int) - maxRow ori)

/-- The anchor columns the solver tries for an orientation:
Python `range(width - max_c)`. -/
def anchorCols (width : Nat) (ori : Finset Cell) : List Int :=
  intRange ((width : Int) - maxCol ori)

/-- The inner `for start_c` loop of `backtrack`.  `k` is the recursive call on
the remaining shapes (`backtrack(shape_index + 1)`).  The result is `none`
when the Python code would raise, otherwise the returned boolean together
with the occupancy grid as left by the loop. -/
def tryCols (k : Finset Cell → Option (Bool × Finset Cell)) (width height : Nat)
    (ori : Finset Cell) (sr : Int) : List Int → Finset Cell → Option (Bool × Finset Cell)
  | [], grid => some (false, grid)
  | sc :: cols, grid =>
      if can_place width height grid ori sr sc then
        match k (place_shape grid ori sr sc true) with
        | none => none
        | some (true, g2) => some (true, g2)
        | some (false, g2) => tryCols k width height ori sr cols (place_shape g2 ori sr sc false)
      else
        tryCols k width height ori sr cols grid

/-- The `for start_r` loop of `backtrack`. -/
def tryRows (k : Finset Cell → Option (Bool × Finset Cell)) (width height : Nat)
    (ori : Finset Cell) : List Int → Finset Cell → Option (Bool × Finset Cell)
  | [], grid => some (false, grid)
  | sr :: rows, grid =>
      match tryCols k width height ori sr (anchorCols width ori) grid with
      | none => none
      | some (true, g2) => some (true, g2)
      | some (false, g2) => tryRows k width height ori rows g2

/-- The `for orientation` loop of `backtrack`.  Python computes
`max_r = max(r for r, c in orientation)` first, which raises `ValueError`
(modelled by `none`) when the orientation is empty. -/
def tryOris (k : Finset Cell → Option (Bool × Finset Cell)) (width height : Nat) :
    List (Finset Cell) → Finset Cell → Option (Bool × Finset Cell)
  | [], grid => some (false, grid)
  | ori :: more, grid =>
      if ori.Nonempty then
        match tryRows k width height ori (anchorRows height ori) grid with
        | none => none
        | some (true, g2) => some (true, g2)
        | some (false, g2) => tryOris k width height more g2
      else none

/-- Python `backtrack`: place the shapes of the list in order; a missing
dict key (`all_orientations[shape_id]`) raises `KeyError`, modelled by
`none`.  The grid is threaded explicitly. -/
def backtrack (width height : Nat) (table : Nat → Option (List (Finset Cell))) :
    List Nat → Finset Cell → Option (Bool × Finset Cell)
  | [], grid => some (true, grid)
  | sid :: rest, grid =>
      match table sid with
      | none => none
      | some ors => tryOris (backtrack width height table rest) width height ors grid

/-- Python `solve_region`: an empty instance list returns True at once,
otherwise run `backtrack(0)` on the all-unoccupied grid and return its
boolean (or no verdict, when the search raises). -/
def solve_region (width height : Nat) (shapes_to_place : List Nat)
    (table : Nat → Option (List (Finset Cell))) : Option Bool :=
  if shapes_to_place.isEmpty then some true
  else (backtrack width height table shapes_to_place ∅).map Prod.fst

/-- The `for shape_id, quantity in enumerate(counts)` loop of `solve`,
started at shape id `sid`: append `quantity` copies of each id with a
positive quantity. -/
def expand_counts : Nat → List Nat → List Nat
  | _, [] => []
  | sid, q :: rest => (if 0 < q then List.replicate q sid else []) ++ expand_counts (sid + 1) rest

/-- The flat list of shape instances a region demands. -/
def build_shapes_to_place (counts : List Nat) : List Nat := expand_counts 0 counts

/-- Python `len(list(all_orientations[sid])[0])`: the cell count of the first
stored orientation of shape `sid`; `none` when the key is missing
(`KeyError`) or the orientation list is empty (`IndexError`). -/
def firstOriSize (table : Nat → Option (List (Finset Cell))) (sid : Nat) : Option Nat :=
  (table sid).bind (fun ors => ors.head?.map Finset.card)

/-- Python `sum(len(list(all_orientations[sid])[0]) for sid in shapes_to_place)`;
`none` when any lookup raises. -/
def total_cells_needed (table : Nat → Option (List (Finset Cell))) : List Nat → Option Nat
  | [] => some 0
  | sid :: rest =>
      (firstOriSize table sid).bind (fun n => (total_cells_needed table rest).map (fun m => n + m))

/-- Python `shapes_to_place.sort(key=lambda sid: -len(list(all_orientations[sid])[0]))`:
stable sort, largest first orientation first. -/
def sort_shapes (table : Nat → Option (List (Finset Cell))) (l : List Nat) : List Nat :=
  l.mergeSort (fun a b => decide ((firstOriSize table b).getD 0 ≤ (firstOriSize table a).getD 0))

/-- The per-region body of Python `solve`: compute the needed cell total
(which may raise on an unknown shape id), reject a region whose demand
exceeds the cell budget, accept an empty demand, otherwise sort the
instances by descending size and run the region solver. -/
def region_verdict (width height : Nat) (counts : List Nat)
    (table : Nat → Option (List (Finset Cell))) : Option Bool :=
  match total_cells_needed table (build_shapes_to_place counts) with
  | none => none
  | some needed =>
      if width * height < needed then some false
      else if (build_shapes_to_place counts).isEmpty then some true
      else solve_region width height (sort_shapes table (build_shapes_to_place counts)) table

theorem mem_intRange {n x : Int} : x ∈ intRange n ↔ 0 ≤ x ∧ x < n := by
  constructor
  · intro hx
    simp only [intRange, List.mem_map, List.mem_range] at hx
    obtain ⟨k, hk, rfl⟩ := hx
    simp only [Int.ofNat_eq_natCast]
    omega
  · intro hx
    simp only [intRange, List.mem_map, List.mem_range]
    refine ⟨x.toNat, by omega, ?_⟩
    simp only [Int.ofNat_eq_natCast]
    omega

theorem can_place_iff {width height : Nat} {grid ori : Finset Cell} {sr sc : Int} :
    can_place width height grid ori sr sc = true ↔
      ∀ p ∈ ori, inBounds width height (sr + p.1, sc + p.2) ∧ (sr + p.1, sc + p.2) ∉ grid := by
  simp [can_place]

theorem mem_offsets {ori : Finset Cell} {sr sc : Int} {q : Cell} :
    q ∈ offsets ori sr sc ↔ ∃ p ∈ ori, (sr + p.1, sc + p.2) = q := by
  simp [offsets]

theorem can_place_disjoint {width height : Nat} {grid ori : Finset Cell} {sr sc : Int}
    (h : can_place width height grid ori sr sc = true) :
    Disjoint (offsets ori sr sc) grid := by
  rw [Finset.disjoint_left]
  intro q hq
  rw [mem_offsets] at hq
  obtain ⟨p, hp, rfl⟩ := hq
  exact ((can_place_iff.mp h) p hp).2

theorem can_place_bounds {width height : Nat} {grid ori : Finset Cell} {sr sc : Int}
    (h : can_place width height grid ori sr sc = true) :
    ∀ q ∈ offsets ori sr sc, inBounds width height q := by
  intro q hq
  rw [mem_offsets] at hq
  obtain ⟨p, hp, rfl⟩ := hq
  exact ((can_place_iff.mp h) p hp).1

theorem union_sdiff_self_of_disjoint {s t : Finset Cell} (h : Disjoint t s) : (s ∪ t) \ t = s := by
  ext x
  simp only [Finset.mem_sdiff, Finset.mem_union]
  constructor
  · rintro ⟨hx | hx, hnx⟩
    · exact hx
    · exact absurd hx hnx
  · intro hx
    exact ⟨Or.inl hx, fun hxt => (Finset.disjoint_left.mp h hxt) hx⟩

theorem place_unplace {grid ori : Finset Cell} {sr sc : Int}
    (h : Disjoint (offsets ori sr sc) grid) :
    place_shape (place_shape grid ori sr sc true) ori sr sc false = grid := by
  simp only [place_shape, if_pos, if_neg]
  exact union_sdiff_self_of_disjoint h

theorem maxRow_le {s : Finset Cell} {p : Cell} (hp : p ∈ s) : p.1 ≤ maxRow s := by
  unfold maxRow
  have himg : p.1 ∈ s.image Prod.fst := Finset.mem_image_of_mem _ hp
  rw [dif_pos ⟨p.1, himg⟩]
  exact Finset.le_max' _ _ himg

theorem maxRow_mem {s : Finset Cell} (hs : s.Nonempty) : ∃ p ∈ s, p.1 = maxRow s := by
  unfold maxRow
  have himg : (s.image Prod.fst).Nonempty := hs.image _
  rw [dif_pos himg]
  have hmem := (s.image Prod.fst).max'_mem himg
  rw [Finset.mem_image] at hmem
  obtain ⟨p, hp, hpe⟩ := hmem
  exact ⟨p, hp, hpe⟩

theorem maxCol_le {s : Finset Cell} {p : Cell} (hp : p ∈ s) : p.2 ≤ maxCol s := by
  unfold maxCol
  have himg : p.2 ∈ s.image Prod.snd := Finset.mem_image_of_mem _ hp
  rw [dif_pos ⟨p.2, himg⟩]
  exact Finset.le_max' _ _ himg

theorem maxCol_mem {s : Finset Cell} (hs : s.Nonempty) : ∃ p ∈ s, p.2 = maxCol s := by
  unfold maxCol
  have himg : (s.image Prod.snd).Nonempty := hs.image _
  rw [dif_pos himg]
  have hmem := (s.image Prod.snd).max'_mem himg
  rw [Finset.mem_image] at hmem
  obtain ⟨p, hp, hpe⟩ := hmem
  exact ⟨p, hp, hpe⟩

theorem minRow_le {s : Finset Cell} {p : Cell} (hp : p ∈ s) : minRow s ≤ p.1 := by
  unfold minRow
  have himg : p.1 ∈ s.image Prod.fst := Finset.mem_image_of_mem _ hp
  rw [dif_pos ⟨p.1, himg⟩]
  exact Finset.min'_le _ _ himg

theorem minRow_mem {s : Finset Cell} (hs : s.Nonempty) : ∃ p ∈ s, p.1 = minRow s := by
  unfold minRow
  have himg : (s.image Prod.fst).Nonempty := hs.image _
  rw [dif_pos himg]
  have hmem := (s.image Prod.fst).min'_mem himg
  rw [Finset.mem_image] at hmem
  obtain ⟨p, hp, hpe⟩ := hmem
  exact ⟨p, hp, hpe⟩

theorem minCol_le {s : Finset Cell} {p : Cell} (hp : p ∈ s) : minCol s ≤ p.2 := by
  unfold minCol
  have himg : p.2 ∈ s.image Prod.snd := Finset.mem_image_of_mem _ hp
  rw [dif_pos ⟨p.2, himg⟩]
  exact Finset.min'_le _ _ himg

theorem minCol_mem {s : Finset Cell} (hs : s.Nonempty) : ∃ p ∈ s, p.2 = minCol s := by
  unfold minCol
  have himg : (s.image Prod.snd).Nonempty := hs.image _
  rw [dif_pos himg]
  have hmem := (s.image Prod.snd).min'_mem himg
  rw [Finset.mem_image] at hmem
  obtain ⟨p, hp, hpe⟩ := hmem
  exact ⟨p, hp, hpe⟩

theorem normalize_empty : normalize ∅ = ∅ := by
  simp [normalize]

theorem normalize_nonempty {s : Finset Cell} (hs : s.Nonempty) : (normalize s).Nonempty := by
  rw [normalize, if_pos hs]
  exact hs.image _

theorem mem_normalize {s : Finset Cell} (hs : s.Nonempty) {q : Cell} :
    q ∈ normalize s ↔ ∃ p ∈ s, (p.1 - minRow s, p.2 - minCol s) = q := by
  rw [normalize, if_pos hs]
  simp

theorem minRow_normalize {s : Finset Cell} (hs : s.Nonempty) : minRow (normalize s) = 0 := by
  obtain ⟨p, hp, hpr⟩ := minRow_mem hs
  have h0 : ((0 : Int), p.2 - minCol s) ∈ normalize s := by
    rw [mem_normalize hs]
    exact ⟨p, hp, by rw [hpr]; simp⟩
  have hle : minRow (normalize s) ≤ 0 := minRow_le h0
  obtain ⟨q, hq, hqr⟩ := minRow_mem (normalize_nonempty hs)
  rw [mem_normalize hs] at hq
  obtain ⟨r, hr, rfl⟩ := hq
  have hge : (0 : Int) ≤ minRow (normalize s) := by
    rw [← hqr]
    simp only
    have := minRow_le hr
    omega
  omega

theorem minCol_normalize {s : Finset Cell} (hs : s.Nonempty) : minCol (normalize s) = 0 := by
  obtain ⟨p, hp, hpc⟩ := minCol_mem hs
  have h0 : (p.1 - minRow s, (0 : Int)) ∈ normalize s := by
    rw [mem_normalize hs]
    exact ⟨p, hp, by rw [hpc]; simp⟩
  have hle : minCol (normalize s) ≤ 0 := minCol_le h0
  obtain ⟨q, hq, hqc⟩ := minCol_mem (normalize_nonempty hs)
  rw [mem_normalize hs] at hq
  obtain ⟨r, hr, rfl⟩ := hq
  have hge : (0 : Int) ≤ minCol (normalize s) := by
    rw [← hqc]
    simp only
    have := minCol_le hr
    omega
  omega

theorem normalize_idem (s : Finset Cell) : normalize (normalize s) = normalize s := by
  by_cases hs : s.Nonempty
  · rw [normalize, if_pos (normalize_nonempty hs), minRow_normalize hs, minCol_normalize hs]
    ext q
    simp
  · rw [Finset.not_nonempty_iff_eq_empty] at hs
    subst hs
    rw [normalize_empty, normalize_empty]

theorem card_normalize (s : Finset Cell) : (normalize s).card = s.card := by
  by_cases hs : s.Nonempty
  · rw [normalize, if_pos hs]
    apply Finset.card_image_of_injective
    intro p q h
    have h1 := congrArg Prod.fst h
    have h2 := congrArg Prod.snd h
    simp only at h1 h2
    have : p.1 = q.1 := by omega
    have : p.2 = q.2 := by omega
    exact Prod.ext (by omega) (by omega)
  · rw [Finset.not_nonempty_iff_eq_empty] at hs
    subst hs
    rw [normalize_empty]

theorem card_rotate_90 (s : Finset Cell) : (rotate_90 s).card = s.card := by
  apply Finset.card_image_of_injective
  intro p q h
  have h1 := congrArg Prod.fst h
  have h2 := congrArg Prod.snd h
  simp only at h1 h2
  exact Prod.ext (by omega) (by omega)

theorem card_flip_horizontal (s : Finset Cell) : (flip_horizontal s).card = s.card := by
  apply Finset.card_image_of_injective
  intro p q h
  have h1 := congrArg Prod.fst h
  have h2 := congrArg Prod.snd h
  simp only at h1 h2
  exact Prod.ext (by omega) (by omega)

theorem card_rotIter (k : Nat) (s : Finset Cell) : (rotIter k s).card = s.card := by
  induction k generalizing s with
  | zero => rfl
  | succ k ih => rw [rotIter, ih, card_rotate_90]

theorem mem_orientationsAux {n : Nat} {cur o : Finset Cell} :
    o ∈ orientationsAux n cur ↔
      ∃ k < n, o = normalize (rotIter k cur) ∨ o = normalize (flip_horizontal (rotIter k cur)) := by
  induction n generalizing cur with
  | zero => simp [orientationsAux]
  | succ n ih =>
    simp only [orientationsAux, Finset.mem_insert, ih]
    constructor
    · rintro (rfl | rfl | ⟨k, hk, hko⟩)
      · exact ⟨0, by omega, Or.inl rfl⟩
      · exact ⟨0, by omega, Or.inr rfl⟩
      · exact ⟨k + 1, by omega, by simpa [rotIter] using hko⟩
    · rintro ⟨k, hk, hko⟩
      match k with
      | 0 =>
        rcases hko with rfl | rfl
        · exact Or.inl rfl
        · exact Or.inr (Or.inl rfl)
      | k + 1 =>
        exact Or.inr (Or.inr ⟨k, by omega, by simpa [rotIter] using hko⟩)

theorem place_shape_true (grid ori : Finset Cell) (sr sc : Int) :
    place_shape grid ori sr sc true = grid ∪ offsets ori sr sc := rfl

/-- Cells covered by a placement (orientation, anchor row, anchor column). -/
def cellsOf (pl : Finset Cell × Int × Int) : Finset Cell := offsets pl.1 pl.2.1 pl.2.2

/-- Union of a list of cell sets. -/
def unionList : List (Finset Cell) → Finset Cell
  | [] => ∅
  | cs :: rest => cs ∪ unionList rest

/-- A placement the backtracking search can produce for shape `sid`: its
orientation is one stored for `sid` and nonempty, the anchor lies in the
enumerated anchor ranges, and every covered cell is in bounds. -/
def PlacedEnum (width height : Nat) (table : Nat → Option (List (Finset Cell)))
    (sid : Nat) (pl : Finset Cell × Int × Int) : Prop :=
  ∃ ors, table sid = some ors ∧ pl.1 ∈ ors ∧ pl.1.Nonempty ∧
    pl.2.1 ∈ anchorRows height pl.1 ∧ pl.2.2 ∈ anchorCols width pl.1 ∧
    ∀ q ∈ cellsOf pl, inBounds width height q

/-- There is a choice of search placements for all the listed shape
instances whose cell sets are pairwise disjoint and disjoint from the
already-occupied set `g`. -/
def ExtOK (width height : Nat) (table : Nat → Option (List (Finset Cell)))
    (g : Finset Cell) (shapes : List Nat) : Prop :=
  ∃ ps : List (Finset Cell × Int × Int),
    List.Forall₂ (PlacedEnum width height table) shapes ps ∧
    (ps.map cellsOf).Pairwise Disjoint ∧
    ∀ cs ∈ ps.map cellsOf, Disjoint cs g

/-- Every listed shape id is present in the table and all its stored
orientations are nonempty; under this precondition the search raises no
exception. -/
def OrisOK (table : Nat → Option (List (Finset Cell))) (sids : List Nat) : Prop :=
  ∀ sid ∈ sids, ∃ ors, table sid = some ors ∧ ∀ ori ∈ ors, ori.Nonempty

theorem tryCols_frame {width height : Nat} {ori : Finset Cell} {sr : Int}
    {k : Finset Cell → Option (Bool × Finset Cell)}
    (hk : ∀ g g', k g = some (false, g') → g' = g) :
    ∀ cols g g', tryCols k width height ori sr cols g = some (false, g') → g' = g := by
  intro cols
  induction cols with
  | nil =>
    intro g g' h
    simp only [tryCols, Option.some.injEq, Prod.mk.injEq] at h
    exact h.2.symm
  | cons sc cols ih =>
    intro g g' h
    rw [tryCols] at h
    by_cases hcp : can_place width height g ori sr sc = true
    · rw [if_pos hcp] at h
      cases hk1 : k (place_shape g ori sr sc true) with
      | none =>
        rw [hk1] at h
        exact Option.noConfusion h
      | some bg =>
        obtain ⟨b, g2⟩ := bg
        cases b with
        | true =>
          rw [hk1] at h
          have h' : (some (true, g2) : Option (Bool × Finset Cell)) = some (false, g') := h
          simp at h'
        | false =>
          rw [hk1] at h
          have hg2 : g2 = place_shape g ori sr sc true := hk _ _ hk1
          have hrestore : place_shape g2 ori sr sc false = g := by
            rw [hg2]
            exact place_unplace (can_place_disjoint hcp)
          have h' : tryCols k width height ori sr cols (place_shape g2 ori sr sc false)
              = some (false, g') := h
          rw [hrestore] at h'
          exact ih g g' h'
    · rw [if_neg hcp] at h
      exact ih g g' h

theorem tryRows_frame {width height : Nat} {ori : Finset Cell}
    {k : Finset Cell → Option (Bool × Finset Cell)}
    (hk : ∀ g g', k g = some (false, g') → g' = g) :
    ∀ rows g g', tryRows k width height ori rows g = some (false, g') → g' = g := by
  intro rows
  induction rows with
  | nil =>
    intro g g' h
    simp only [tryRows, Option.some.injEq, Prod.mk.injEq] at h
    exact h.2.symm
  | cons sr rows ih =>
    intro g g' h
    rw [tryRows] at h
    cases hc : tryCols k width height ori sr (anchorCols width ori) g with
    | none =>
      rw [hc] at h
      exact Option.noConfusion h
    | some bg =>
      obtain ⟨b, g2⟩ := bg
      cases b with
      | true =>
        rw [hc] at h
        have h' : (some (true, g2) : Option (Bool × Finset Cell)) = some (false, g') := h
        simp at h'
      | false =>
        rw [hc] at h
        have hg2 : g2 = g := tryCols_frame hk _ _ _ hc
        have h' : tryRows k width height ori rows g2 = some (false, g') := h
        rw [hg2] at h'
        exact ih g g' h'

theorem tryOris_frame {width height : Nat}
    {k : Finset Cell → Option (Bool × Finset Cell)}
    (hk : ∀ g g', k g = some (false, g') → g' = g) :
    ∀ ors g g', tryOris k width height ors g = some (false, g') → g' = g := by
  intro ors
  induction ors with
  | nil =>
    intro g g' h
    simp only [tryOris, Option.some.injEq, Prod.mk.injEq] at h
    exact h.2.symm
  | cons ori more ih =>
    intro g g' h
    rw [tryOris] at h
    by_cases hne : ori.Nonempty
    · rw [if_pos hne] at h
      cases hr : tryRows k width height ori (anchorRows height ori) g with
      | none =>
        rw [hr] at h
        exact Option.noConfusion h
      | some bg =>
        obtain ⟨b, g2⟩ := bg
        cases b with
        | true =>
          rw [hr] at h
          have h' : (some (true, g2) : Option (Bool × Finset Cell)) = some (false, g') := h
          simp at h'
        | false =>
          rw [hr] at h
          have hg2 : g2 = g := tryRows_frame hk _ _ _ hr
          have h' : tryOris k width height more g2 = some (false, g') := h
          rw [hg2] at h'
          exact ih g g' h'
    · rw [if_neg hne] at h
      exact Option.noConfusion h

theorem backtrack_frame {width height : Nat} {table : Nat → Option (List (Finset Cell))} :
    ∀ shapes g g', backtrack width height table shapes g = some (false, g') → g' = g := by
  intro shapes
  induction shapes with
  | nil =>
    intro g g' h
    simp only [backtrack, Option.some.injEq, Prod.mk.injEq] at h
    exact absurd h.1 (by simp)
  | cons sid rest ih =>
    intro g g' h
    rw [backtrack] at h
    cases ht : table sid with
    | none =>
      rw [ht] at h
      exact Option.noConfusion h
    | some ors =>
      rw [ht] at h
      have h' : tryOris (backtrack width height table rest) width height ors g
          = some (false, g') := h
      exact tryOris_frame ih _ _ _ h'

theorem tryCols_sound {width height : Nat} {ori : Finset Cell} {sr : Int}
    {k : Finset Cell → Option (Bool × Finset Cell)} {Q : Finset Cell → Finset Cell → Prop}
    (hkS : ∀ g g₂, k g = some (true, g₂) → Q g g₂)
    (hkF : ∀ g g', k g = some (false, g') → g' = g) :
    ∀ cols g g₂, tryCols k width height ori sr cols g = some (true, g₂) →
      ∃ sc ∈ cols, can_place width height g ori sr sc = true ∧
        Q (g ∪ offsets ori sr sc) g₂ := by
  intro cols
  induction cols with
  | nil =>
    intro g g₂ h
    simp only [tryCols, Option.some.injEq, Prod.mk.injEq] at h
    exact absurd h.1 (by simp)
  | cons sc cols ih =>
    intro g g₂ h
    rw [tryCols] at h
    by_cases hcp : can_place width height g ori sr sc = true
    · rw [if_pos hcp] at h
      cases hk1 : k (place_shape g ori sr sc true) with
      | none =>
        rw [hk1] at h
        exact Option.noConfusion h
      | some bg =>
        obtain ⟨b, g2⟩ := bg
        cases b with
        | true =>
          rw [hk1] at h
          have h' : (some (true, g2) : Option (Bool × Finset Cell)) = some (true, g₂) := h
          simp only [Option.some.injEq, Prod.mk.injEq, true_and] at h'
          subst h'
          refine ⟨sc, List.mem_cons_self _ _, hcp, ?_⟩
          have := hkS _ _ hk1
          rwa [place_shape_true] at this
        | false =>
          rw [hk1] at h
          have hg2 : g2 = place_shape g ori sr sc true := hkF _ _ hk1
          have hrestore : place_shape g2 ori sr sc false = g := by
            rw [hg2]
            exact place_unplace (can_place_disjoint hcp)
          have h' : tryCols k width height ori sr cols (place_shape g2 ori sr sc false)
              = some (true, g₂) := h
          rw [hrestore] at h'
          obtain ⟨sc', hsc', hcp', hQ⟩ := ih g g₂ h'
          exact ⟨sc', List.mem_cons_of_mem _ hsc', hcp', hQ⟩
    · rw [if_neg hcp] at h
      obtain ⟨sc', hsc', hcp', hQ⟩ := ih g g₂ h
      exact ⟨sc', List.mem_cons_of_mem _ hsc', hcp', hQ⟩

theorem tryRows_sound {width height : Nat} {ori : Finset Cell}
    {k : Finset Cell → Option (Bool × Finset Cell)} {Q : Finset Cell → Finset Cell → Prop}
    (hkS : ∀ g g₂, k g = some (true, g₂) → Q g g₂)
    (hkF : ∀ g g', k g = some (false, g') → g' = g) :
    ∀ rows g g₂, tryRows k width height ori rows g = some (true, g₂) →
      ∃ sr ∈ rows, ∃ sc ∈ anchorCols width ori, can_place width height g ori sr sc = true ∧
        Q (g ∪ offsets ori sr sc) g₂ := by
  intro rows
  induction rows with
  | nil =>
    intro g g₂ h
    simp only [tryRows, Option.some.injEq, Prod.mk.injEq] at h
    exact absurd h.1 (by simp)
  | cons sr rows ih =>
    intro g g₂ h
    rw [tryRows] at h
    cases hc : tryCols k width height ori sr (anchorCols width ori) g with
    | none =>
      rw [hc] at h
      exact Option.noConfusion h
    | some bg =>
      obtain ⟨b, g2⟩ := bg
      cases b with
      | true =>
        rw [hc] at h
        have h' : (some (true, g2) : Option (Bool × Finset Cell)) = some (true, g₂) := h
        simp only [Option.some.injEq, Prod.mk.injEq, true_and] at h'
        subst h'
        obtain ⟨sc, hsc, hcp, hQ⟩ := tryCols_sound hkS hkF _ _ _ hc
        exact ⟨sr, List.mem_cons_self _ _, sc, hsc, hcp, hQ⟩
      | false =>
        rw [hc] at h
        have hg2 : g2 = g := tryCols_frame hkF _ _ _ hc
        have h' : tryRows k width height ori rows g2 = some (true, g₂) := h
        rw [hg2] at h'
        obtain ⟨sr', hsr', rest⟩ := ih g g₂ h'
        exact ⟨sr', List.mem_cons_of_mem _ hsr', rest⟩

theorem tryOris_sound {width height : Nat}
    {k : Finset Cell → Option (Bool × Finset Cell)} {Q : Finset Cell → Finset Cell → Prop}
    (hkS : ∀ g g₂, k g = some (true, g₂) → Q g g₂)
    (hkF : ∀ g g', k g = some (false, g') → g' = g) :
    ∀ ors g g₂, tryOris k width height ors g = some (true, g₂) →
      ∃ ori ∈ ors, ori.Nonempty ∧ ∃ sr ∈ anchorRows height ori, ∃ sc ∈ anchorCols width ori,
        can_place width height g ori sr sc = true ∧ Q (g ∪ offsets ori sr sc) g₂ := by
  intro ors
  induction ors with
  | nil =>
    intro g g₂ h
    simp only [tryOris, Option.some.injEq, Prod.mk.injEq] at h
    exact absurd h.1 (by simp)
  | cons ori more ih =>
    intro g g₂ h
    rw [tryOris] at h
    by_cases hne : ori.Nonempty
    · rw [if_pos hne] at h
      cases hr : tryRows k width height ori (anchorRows height ori) g with
      | none =>
        rw [hr] at h
        exact Option.noConfusion h
      | some bg =>
        obtain ⟨b, g2⟩ := bg
        cases b with
        | true =>
          rw [hr] at h
          have h' : (some (true, g2) : Option (Bool × Finset Cell)) = some (true, g₂) := h
          simp only [Option.some.injEq, Prod.mk.injEq, true_and] at h'
          subst h'
          obtain ⟨sr, hsr, sc, hsc, hcp, hQ⟩ := tryRows_sound hkS hkF _ _ _ hr
          exact ⟨ori, List.mem_cons_self _ _, hne, sr, hsr, sc, hsc, hcp, hQ⟩
        | false =>
          rw [hr] at h
          have hg2 : g2 = g := tryRows_frame hkF _ _ _ hr
          have h' : tryOris k width height more g2 = some (true, g₂) := h
          rw [hg2] at h'
          obtain ⟨ori', hori', rest⟩ := ih g g₂ h'
          exact ⟨ori', List.mem_cons_of_mem _ hori', rest⟩
    · rw [if_neg hne] at h
      exact Option.noConfusion h

theorem backtrack_sound {width height : Nat} {table : Nat → Option (List (Finset Cell))} :
    ∀ shapes g g₂, backtrack width height table shapes g = some (true, g₂) →
      ∃ ps : List (Finset Cell × Int × Int),
        List.Forall₂ (PlacedEnum width height table) shapes ps ∧
        (ps.map cellsOf).Pairwise Disjoint ∧
        (∀ cs ∈ ps.map cellsOf, Disjoint cs g) ∧
        g₂ = g ∪ unionList (ps.map cellsOf) := by
  intro shapes
  induction shapes with
  | nil =>
    intro g g₂ h
    simp only [backtrack, Option.some.injEq, Prod.mk.injEq, true_and] at h
    subst h
    refine ⟨[], List.Forall₂.nil, List.Pairwise.nil, by simp, ?_⟩
    simp [unionList]
  | cons sid rest ih =>
    intro g g₂ h
    rw [backtrack] at h
    cases ht : table sid with
    | none =>
      rw [ht] at h
      exact Option.noConfusion h
    | some ors =>
      rw [ht] at h
      have h' : tryOris (backtrack width height table rest) width height ors g
          = some (true, g₂) := h
      obtain ⟨ori, hmem, hne, sr, hsr, sc, hsc, hcp, hQ⟩ :=
        tryOris_sound (fun g g₂ hg => ih g g₂ hg) (backtrack_frame rest) _ _ _ h'
      obtain ⟨ps', hf2, hpw, hdg, hg2⟩ := hQ
      refine ⟨(ori, sr, sc) :: ps', ?_, ?_, ?_, ?_⟩
      · refine List.Forall₂.cons ?_ hf2
        exact ⟨ors, ht, hmem, hne, hsr, hsc, can_place_bounds hcp⟩
      · rw [List.map_cons, List.pairwise_cons]
        constructor
        · intro cs hcs
          have hd := hdg cs hcs
          rw [Finset.disjoint_union_right] at hd
          exact hd.2.symm
        · exact hpw
      · intro cs hcs
        rw [List.map_cons, List.mem_cons] at hcs
        rcases hcs with rfl | hcs
        · exact can_place_disjoint hcp
        · have hd := hdg cs hcs
          rw [Finset.disjoint_union_right] at hd
          exact hd.1
      · rw [hg2, List.map_cons, unionList, Finset.union_assoc]
        rfl

theorem tryCols_total {width height : Nat} {ori : Finset Cell} {sr : Int}
    {k : Finset Cell → Option (Bool × Finset Cell)} {K : Finset Cell → Prop}
    (hkT : ∀ g, ∃ b g', k g = some (b, g') ∧ (K g → b = true))
    (hkF : ∀ g g', k g = some (false, g') → g' = g) :
    ∀ cols g, ∃ b g', tryCols k width height ori sr cols g = some (b, g') ∧
      ((∃ sc ∈ cols, can_place width height g ori sr sc = true ∧ K (g ∪ offsets ori sr sc)) →
        b = true) := by
  intro cols
  induction cols with
  | nil =>
    intro g
    refine ⟨false, g, by rw [tryCols], ?_⟩
    rintro ⟨sc, hsc, _⟩
    exact absurd hsc (List.not_mem_nil sc)
  | cons sc cols ih =>
    intro g
    by_cases hcp : can_place width height g ori sr sc = true
    · obtain ⟨b1, g1, hk1, himp1⟩ := hkT (place_shape g ori sr sc true)
      cases b1 with
      | true =>
        refine ⟨true, g1, ?_, fun _ => rfl⟩
        rw [tryCols, if_pos hcp, hk1]
      | false =>
        have hg1 : g1 = place_shape g ori sr sc true := hkF _ _ hk1
        have hrestore : place_shape g1 ori sr sc false = g := by
          rw [hg1]
          exact place_unplace (can_place_disjoint hcp)
        obtain ⟨b2, g2, hrec, himp2⟩ := ih g
        refine ⟨b2, g2, ?_, ?_⟩
        · rw [tryCols, if_pos hcp, hk1]
          show tryCols k width height ori sr cols (place_shape g1 ori sr sc false) = some (b2, g2)
          rw [hrestore]
          exact hrec
        · rintro ⟨sc', hsc', hcp', hK⟩
          rcases List.mem_cons.mp hsc' with rfl | hsc'
          · have hKp : K (place_shape g ori sr sc' true) := by rwa [place_shape_true]
            exact absurd (himp1 hKp) (by simp)
          · exact himp2 ⟨sc', hsc', hcp', hK⟩
    · obtain ⟨b2, g2, hrec, himp2⟩ := ih g
      refine ⟨b2, g2, ?_, ?_⟩
      · rw [tryCols, if_neg hcp]
        exact hrec
      · rintro ⟨sc', hsc', hcp', hK⟩
        rcases List.mem_cons.mp hsc' with rfl | hsc'
        · exact absurd hcp' hcp
        · exact himp2 ⟨sc', hsc', hcp', hK⟩

theorem tryRows_total {width height : Nat} {ori : Finset Cell}
    {k : Finset Cell → Option (Bool × Finset Cell)} {K : Finset Cell → Prop}
    (hkT : ∀ g, ∃ b g', k g = some (b, g') ∧ (K g → b = true))
    (hkF : ∀ g g', k g = some (false, g') → g' = g) :
    ∀ rows g, ∃ b g', tryRows k width height ori rows g = some (b, g') ∧
      ((∃ sr ∈ rows, ∃ sc ∈ anchorCols width ori,
          can_place width height g ori sr sc = true ∧ K (g ∪ offsets ori sr sc)) →
        b = true) := by
  intro rows
  induction rows with
  | nil =>
    intro g
    refine ⟨false, g, by rw [tryRows], ?_⟩
    rintro ⟨sr, hsr, _⟩
    exact absurd hsr (List.not_mem_nil sr)
  | cons sr rows ih =>
    intro g
    obtain ⟨b1, g1, h1, himp1⟩ := tryCols_total hkT hkF (anchorCols width ori) g
    cases b1 with
    | true =>
      refine ⟨true, g1, ?_, fun _ => rfl⟩
      rw [tryRows, h1]
    | false =>
      have hg1 : g1 = g := tryCols_frame hkF _ _ _ h1
      obtain ⟨b2, g2, hrec, himp2⟩ := ih g
      refine ⟨b2, g2, ?_, ?_⟩
      · rw [tryRows, h1]
        show tryRows k width height ori rows g1 = some (b2, g2)
        rw [hg1]
        exact hrec
      · rintro ⟨sr', hsr', sc, hsc, hcp, hK⟩
        rcases List.mem_cons.mp hsr' with rfl | hsr'
        · exact absurd (himp1 ⟨sc, hsc, hcp, hK⟩) (by simp)
        · exact himp2 ⟨sr', hsr', sc, hsc, hcp, hK⟩

theorem tryOris_total {width height : Nat}
    {k : Finset Cell → Option (Bool × Finset Cell)} {K : Finset Cell → Prop}
    (hkT : ∀ g, ∃ b g', k g = some (b, g') ∧ (K g → b = true))
    (hkF : ∀ g g', k g = some (false, g') → g' = g) :
    ∀ ors, (∀ ori ∈ ors, ori.Nonempty) → ∀ g,
      ∃ b g', tryOris k width height ors g = some (b, g') ∧
        ((∃ ori ∈ ors, ∃ sr ∈ anchorRows height ori, ∃ sc ∈ anchorCols width ori,
            can_place width height g ori sr sc = true ∧ K (g ∪ offsets ori sr sc)) →
          b = true) := by
  intro ors
  induction ors with
  | nil =>
    intro _ g
    refine ⟨false, g, by rw [tryOris], ?_⟩
    rintro ⟨ori, hori, _⟩
    exact absurd hori (List.not_mem_nil ori)
  | cons ori more ih =>
    intro hn g
    have hne : ori.Nonempty := hn ori (List.mem_cons_self _ _)
    obtain ⟨b1, g1, h1, himp1⟩ := tryRows_total hkT hkF (anchorRows height ori) g
    cases b1 with
    | true =>
      refine ⟨true, g1, ?_, fun _ => rfl⟩
      rw [tryOris, if_pos hne, h1]
    | false =>
      have hg1 : g1 = g := tryRows_frame hkF _ _ _ h1
      obtain ⟨b2, g2, hrec, himp2⟩ := ih (fun o ho => hn o (List.mem_cons_of_mem _ ho)) g
      refine ⟨b2, g2, ?_, ?_⟩
      · rw [tryOris, if_pos hne, h1]
        show tryOris k width height more g1 = some (b2, g2)
        rw [hg1]
        exact hrec
      · rintro ⟨ori', hori', sr, hsr, sc, hsc, hcp, hK⟩
        rcases List.mem_cons.mp hori' with rfl | hori'
        · exact absurd (himp1 ⟨sr, hsr, sc, hsc, hcp, hK⟩) (by simp)
        · exact himp2 ⟨ori', hori', sr, hsr, sc, hsc, hcp, hK⟩

theorem ExtOK_cons_elim {width height : Nat} {table : Nat → Option (List (Finset Cell))}
    {g : Finset Cell} {sid : Nat} {rest : List Nat} {ors : List (Finset Cell)}
    (hext : ExtOK width height table g (sid :: rest)) (ht : table sid = some ors) :
    ∃ ori ∈ ors, ∃ sr ∈ anchorRows height ori, ∃ sc ∈ anchorCols width ori,
      can_place width height g ori sr sc = true ∧
      ExtOK width height table (g ∪ offsets ori sr sc) rest := by
  obtain ⟨ps, hf2, hpw, hdg⟩ := hext
  cases hf2 with
  | cons hpl hf2' =>
    rename_i pl ps'
    obtain ⟨ors', ht', hmem, hne', hsr, hsc, hbounds⟩ := hpl
    rw [ht] at ht'
    injection ht' with he
    subst he
    rw [List.map_cons, List.pairwise_cons] at hpw
    have hdhead : Disjoint (cellsOf pl) g := hdg (cellsOf pl) (by simp)
    refine ⟨pl.1, hmem, pl.2.1, hsr, pl.2.2, hsc, ?_, ?_⟩
    · rw [can_place_iff]
      intro p hp
      have hq : (pl.2.1 + p.1, pl.2.2 + p.2) ∈ cellsOf pl := by
        rw [cellsOf, mem_offsets]
        exact ⟨p, hp, rfl⟩
      exact ⟨hbounds _ hq, fun hg => (Finset.disjoint_left.mp hdhead hq) hg⟩
    · refine ⟨ps', hf2', hpw.2, ?_⟩
      intro cs hcs
      rw [Finset.disjoint_union_right]
      refine ⟨hdg cs (by rw [List.map_cons]; exact List.mem_cons_of_mem _ hcs), ?_⟩
      exact (hpw.1 cs hcs).symm

theorem backtrack_total {width height : Nat} {table : Nat → Option (List (Finset Cell))} :
    ∀ shapes, OrisOK table shapes → ∀ g,
      ∃ b g', backtrack width height table shapes g = some (b, g') ∧
        (ExtOK width height table g shapes → b = true) := by
  intro shapes
  induction shapes with
  | nil =>
    intro _ g
    exact ⟨true, g, by rw [backtrack], fun _ => rfl⟩
  | cons sid rest ih =>
    intro hOK g
    obtain ⟨ors, ht, hne⟩ := hOK sid (List.mem_cons_self _ _)
    have hOKrest : OrisOK table rest := fun s hs => hOK s (List.mem_cons_of_mem _ hs)
    obtain ⟨b, g', heq, himp⟩ := tryOris_total (ih hOKrest) (backtrack_frame rest) ors hne g
    refine ⟨b, g', ?_, ?_⟩
    · rw [backtrack, ht]
      exact heq
    · intro hext
      apply himp
      obtain ⟨ori, hmem, sr, hsr, sc, hsc, hcp, hrest⟩ := ExtOK_cons_elim hext ht
      exact ⟨ori, hmem, sr, hsr, sc, hsc, hcp, hrest⟩

theorem backtrack_char {width height : Nat} {table : Nat → Option (List (Finset Cell))}
    {shapes : List Nat} (hOK : OrisOK table shapes) (g : Finset Cell) :
    ∃ b g', backtrack width height table shapes g = some (b, g') ∧
      (b = true ↔ ExtOK width height table g shapes) ∧ (b = false → g' = g) := by
  obtain ⟨b, g', heq, himp⟩ := backtrack_total shapes hOK g
  refine ⟨b, g', heq, ⟨?_, himp⟩, ?_⟩
  · intro hb
    subst hb
    obtain ⟨ps, h1, h2, h3, _⟩ := backtrack_sound shapes g g' heq
    exact ⟨ps, h1, h2, h3⟩
  · intro hb
    subst hb
    exact backtrack_frame shapes g g' heq

theorem ExtOK_nil {width height : Nat} {table : Nat → Option (List (Finset Cell))}
    {g : Finset Cell} : ExtOK width height table g [] := by
  exact ⟨[], List.Forall₂.nil, List.Pairwise.nil, by simp⟩

theorem solve_region_char {width height : Nat} {table : Nat → Option (List (Finset Cell))}
    {shapes : List Nat} (hOK : OrisOK table shapes) :
    ∃ b, solve_region width height shapes table = some b ∧
      (b = true ↔ ExtOK width height table ∅ shapes) := by
  cases shapes with
  | nil =>
    refine ⟨true, by simp [solve_region], ?_⟩
    simp only [true_iff]
    exact ExtOK_nil
  | cons sid rest =>
    obtain ⟨b, g', heq, hiff, _⟩ := backtrack_char hOK (∅ : Finset Cell)
    refine ⟨b, ?_, hiff⟩
    rw [solve_region, if_neg (by simp), heq]
    rfl

theorem forall2_perm {R : Nat → (Finset Cell × Int × Int) → Prop} :
    ∀ {l₁ l₂ : List Nat}, l₁.Perm l₂ → ∀ {ps}, List.Forall₂ R l₁ ps →
      ∃ ps', ps.Perm ps' ∧ List.Forall₂ R l₂ ps' := by
  intro l₁ l₂ hperm
  induction hperm with
  | nil =>
    intro ps h
    cases h
    exact ⟨[], List.Perm.refl _, List.Forall₂.nil⟩
  | cons x hperm ih =>
    intro ps h
    cases h with
    | cons hx hrest =>
      rename_i pl ps₀
      obtain ⟨ps', hp, hf⟩ := ih hrest
      exact ⟨pl :: ps', hp.cons pl, List.Forall₂.cons hx hf⟩
  | swap x y l =>
    intro ps h
    cases h with
    | cons hy h2 =>
      rename_i pl1 ps1
      cases h2 with
      | cons hx h3 =>
        rename_i pl2 ps2
        exact ⟨pl2 :: pl1 :: ps2, List.Perm.swap _ _ _,
          List.Forall₂.cons hx (List.Forall₂.cons hy h3)⟩
  | trans h12 h23 ih12 ih23 =>
    intro ps h
    obtain ⟨ps', hp', hf'⟩ := ih12 h
    obtain ⟨ps'', hp'', hf''⟩ := ih23 hf'
    exact ⟨ps'', hp'.trans hp'', hf''⟩

theorem ExtOK_perm {width height : Nat} {table : Nat → Option (List (Finset Cell))}
    {g : Finset Cell} {l₁ l₂ : List Nat} (hperm : l₁.Perm l₂) :
    ExtOK width height table g l₁ → ExtOK width height table g l₂ := by
  rintro ⟨ps, hf2, hpw, hdg⟩
  obtain ⟨ps', hp, hf2'⟩ := forall2_perm hperm hf2
  refine ⟨ps', hf2', ?_, ?_⟩
  · exact ((hp.map cellsOf).pairwise_iff (fun {a b} hd => Disjoint.symm hd)).mp hpw
  · intro cs hcs
    exact hdg cs ((hp.map cellsOf).mem_iff.mpr hcs)

/-- The claim-level notion of a valid placement for shape `sid`: an
orientation stored for the shape, anchored at a grid position, with every
covered cell inside the grid. -/
def PlacementOK (width height : Nat) (table : Nat → Option (List (Finset Cell)))
    (sid : Nat) (pl : Finset Cell × Int × Int) : Prop :=
  ∃ ors, table sid = some ors ∧ pl.1 ∈ ors ∧
    0 ≤ pl.2.1 ∧ pl.2.1 < (height : Int) ∧ 0 ≤ pl.2.2 ∧ pl.2.2 < (width : Int) ∧
    ∀ q ∈ cellsOf pl, inBounds width height q

/-- The claim-level existence of a simultaneous non-overlapping placement of
all the listed shape instances. -/
def IsSolvable (width height : Nat) (shapes : List Nat)
    (table : Nat → Option (List (Finset Cell))) : Prop :=
  ∃ ps : List (Finset Cell × Int × Int),
    List.Forall₂ (PlacementOK width height table) shapes ps ∧
    (ps.map cellsOf).Pairwise Disjoint

/-- Every stored orientation of a listed shape id, when the id is present at
all, is nonempty and already normalized (which is what the orientation
generator produces for nonempty shapes). -/
def OrisNormOK (table : Nat → Option (List (Finset Cell))) (sids : List Nat) : Prop :=
  ∀ sid ∈ sids, ∀ ors, table sid = some ors → ∀ ori ∈ ors, ori.Nonempty ∧ normalize ori = ori

theorem maxRow_nonneg_of_normalized {s : Finset Cell} (hne : s.Nonempty)
    (hnorm : normalize s = s) : 0 ≤ maxRow s := by
  have hmin : minRow s = 0 := by
    conv_lhs => rw [← hnorm]
    exact minRow_normalize hne
  obtain ⟨p, hp, hpr⟩ := minRow_mem hne
  have := maxRow_le hp
  omega

theorem maxCol_nonneg_of_normalized {s : Finset Cell} (hne : s.Nonempty)
    (hnorm : normalize s = s) : 0 ≤ maxCol s := by
  have hmin : minCol s = 0 := by
    conv_lhs => rw [← hnorm]
    exact minCol_normalize hne
  obtain ⟨p, hp, hpc⟩ := minCol_mem hne
  have := maxCol_le hp
  omega

theorem PlacedEnum_to_OK {width height : Nat} {table : Nat → Option (List (Finset Cell))}
    {sid : Nat} {pl : Finset Cell × Int × Int} (h : PlacedEnum width height table sid pl)
    (hnorm : normalize pl.1 = pl.1) : PlacementOK width height table sid pl := by
  obtain ⟨ors, ht, hmem, hne, hsr, hsc, hbounds⟩ := h
  rw [anchorRows, mem_intRange] at hsr
  rw [anchorCols, mem_intRange] at hsc
  have hr := maxRow_nonneg_of_normalized hne hnorm
  have hc := maxCol_nonneg_of_normalized hne hnorm
  exact ⟨ors, ht, hmem, hsr.1, by omega, hsc.1, by omega, hbounds⟩

theorem OK_to_PlacedEnum {width height : Nat} {table : Nat → Option (List (Finset Cell))}
    {sid : Nat} {pl : Finset Cell × Int × Int} (h : PlacementOK width height table sid pl)
    (hne : pl.1.Nonempty) : PlacedEnum width height table sid pl := by
  obtain ⟨ors, ht, hmem, hsr0, hsrh, hsc0, hscw, hbounds⟩ := h
  refine ⟨ors, ht, hmem, hne, ?_, ?_, hbounds⟩
  · rw [anchorRows, mem_intRange]
    obtain ⟨p, hp, hpr⟩ := maxRow_mem hne
    have hq : (pl.2.1 + p.1, pl.2.2 + p.2) ∈ cellsOf pl := by
      rw [cellsOf, mem_offsets]
      exact ⟨p, hp, rfl⟩
    have hb := hbounds _ hq
    obtain ⟨hb1, hb2, hb3, hb4⟩ := hb
    simp only at hb1 hb2 hb3 hb4
    omega
  · rw [anchorCols, mem_intRange]
    obtain ⟨p, hp, hpc⟩ := maxCol_mem hne
    have hq : (pl.2.1 + p.1, pl.2.2 + p.2) ∈ cellsOf pl := by
      rw [cellsOf, mem_offsets]
      exact ⟨p, hp, rfl⟩
    have hb := hbounds _ hq
    obtain ⟨hb1, hb2, hb3, hb4⟩ := hb
    simp only at hb1 hb2 hb3 hb4
    omega

theorem forall2_enum_of_ok {width height : Nat} {table : Nat → Option (List (Finset Cell))} :
    ∀ {shapes : List Nat} {ps}, OrisNormOK table shapes →
      List.Forall₂ (PlacementOK width height table) shapes ps →
      List.Forall₂ (PlacedEnum width height table) shapes ps := by
  intro shapes ps hN hf
  revert hN
  induction hf with
  | nil =>
    intro _
    exact List.Forall₂.nil
  | cons hx hrest ih =>
    rename_i sid pl rest ps'
    intro hN
    have hNhead := hN sid (List.mem_cons_self _ _)
    have hNtail : OrisNormOK table rest := fun s hs => hN s (List.mem_cons_of_mem _ hs)
    obtain ⟨ors, ht, hmem, -⟩ := id hx
    have hne : pl.1.Nonempty := (hNhead ors ht pl.1 hmem).1
    exact List.Forall₂.cons (OK_to_PlacedEnum hx hne) (ih hNtail)

theorem forall2_ok_of_enum {width height : Nat} {table : Nat → Option (List (Finset Cell))} :
    ∀ {shapes : List Nat} {ps}, OrisNormOK table shapes →
      List.Forall₂ (PlacedEnum width height table) shapes ps →
      List.Forall₂ (PlacementOK width height table) shapes ps := by
  intro shapes ps hN hf
  revert hN
  induction hf with
  | nil =>
    intro _
    exact List.Forall₂.nil
  | cons hx hrest ih =>
    rename_i sid pl rest ps'
    intro hN
    have hNhead := hN sid (List.mem_cons_self _ _)
    have hNtail : OrisNormOK table rest := fun s hs => hN s (List.mem_cons_of_mem _ hs)
    obtain ⟨ors, ht, hmem, -⟩ := id hx
    have hnorm : normalize pl.1 = pl.1 := (hNhead ors ht pl.1 hmem).2
    exact List.Forall₂.cons (PlacedEnum_to_OK hx hnorm) (ih hNtail)

theorem forall2_mem_left {R : Nat → (Finset Cell × Int × Int) → Prop} :
    ∀ {l : List Nat} {ps}, List.Forall₂ R l ps → ∀ {a}, a ∈ l → ∃ b ∈ ps, R a b := by
  intro l ps hf
  induction hf with
  | nil =>
    intro a ha
    exact absurd ha (List.not_mem_nil a)
  | cons hx hrest ih =>
    intro a ha
    rcases List.mem_cons.mp ha with rfl | ha
    · rename_i b l' ps'
      exact ⟨b, List.mem_cons_self _ _, hx⟩
    · obtain ⟨b, hb, hR⟩ := ih ha
      exact ⟨b, List.mem_cons_of_mem _ hb, hR⟩

/-- Example table: shape 0 is a vertical domino, nothing else is stored. -/
def tblDomino : Nat → Option (List (Finset Cell)) :=
  fun sid => if sid = 0 then some [{((0 : Int), (0 : Int)), ((1 : Int), (0 : Int))}] else none

/-- Example table: shape 0 is a single cell, nothing else is stored. -/
def tblSingle : Nat → Option (List (Finset Cell)) :=
  fun sid => if sid = 0 then some [{((0 : Int), (0 : Int))}] else none

/-- Example table: every shape id has the one-element orientation list
holding the empty cell set, as the orientation generator yields for an
empty shape. -/
def tblEmptyOri : Nat → Option (List (Finset Cell)) :=
  fun _ => some [(∅ : Finset Cell)]

/-- Example table: shape 0 is a horizontal domino, every other id has only
the empty orientation. -/
def tblMixed : Nat → Option (List (Finset Cell)) :=
  fun sid =>
    if sid = 0 then some [{((0 : Int), (0 : Int)), ((0 : Int), (1 : Int))}]
    else some [(∅ : Finset Cell)]

/-- Example table: shape 0 is a single cell, every other id is a vertical
domino. -/
def tblTwo : Nat → Option (List (Finset Cell)) :=
  fun sid =>
    if sid = 0 then some [{((0 : Int), (0 : Int))}]
    else some [{((0 : Int), (0 : Int)), ((1 : Int), (0 : Int))}]

/-- C3: get_all_orientations(S) consists of exactly the distinct normalized
forms of the eight dihedral transforms of S: the four clockwise rotations
of S, each taken with and without the horizontal mirror. -/
theorem C3_orientations_dihedral (S o : Finset Cell) :
    o ∈ get_all_orientations S ↔
      ∃ k < 4, o = normalize (rotIter k S) ∨ o = normalize (flip_horizontal (rotIter k S)) :=
  mem_orientationsAux

theorem card_orientationsAux_le (n : Nat) : ∀ cur, (orientationsAux n cur).card ≤ 2 * n := by
  induction n with
  | zero =>
    intro cur
    simp [orientationsAux]
  | succ n ih =>
    intro cur
    rw [orientationsAux]
    have h1 := Finset.card_insert_le (normalize (flip_horizontal cur))
      (orientationsAux n (rotate_90 cur))
    have h2 := Finset.card_insert_le (normalize cur)
      (insert (normalize (flip_horizontal cur)) (orientationsAux n (rotate_90 cur)))
    have h3 := ih (rotate_90 cur)
    omega

/-- C8: get_all_orientations returns between 1 and 8 elements; each element
is normalized (re-normalizing yields itself) and has exactly the same cell
count as the input set. -/
theorem C8_orientations_count (S : Finset Cell) :
    (1 ≤ (get_all_orientations S).card ∧ (get_all_orientations S).card ≤ 8) ∧
      ∀ o ∈ get_all_orientations S, normalize o = o ∧ o.card = S.card := by
  refine ⟨⟨?_, ?_⟩, ?_⟩
  · have hmem : normalize S ∈ get_all_orientations S :=
      mem_orientationsAux.mpr ⟨0, by omega, Or.inl rfl⟩
    exact Finset.card_pos.mpr ⟨normalize S, hmem⟩
  · exact card_orientationsAux_le 4 S
  · intro o ho
    obtain ⟨k, hk, hko⟩ := mem_orientationsAux.mp ho
    rcases hko with rfl | rfl
    · exact ⟨normalize_idem _, by rw [card_normalize, card_rotIter]⟩
    · exact ⟨normalize_idem _, by rw [card_normalize, card_flip_horizontal, card_rotIter]⟩

/-- C8 witness: concrete instance for the horizontal domino; the vertical
domino is one of its orientations, it is normalized and has the same cell
count. -/
theorem C8_witness :
    (1 ≤ (get_all_orientations {((0 : Int), (0 : Int)), ((0 : Int), (1 : Int))}).card ∧
      (get_all_orientations {((0 : Int), (0 : Int)), ((0 : Int), (1 : Int))}).card ≤ 8) ∧
    (normalize {((0 : Int), (0 : Int)), ((1 : Int), (0 : Int))}
        = {((0 : Int), (0 : Int)), ((1 : Int), (0 : Int))} ∧
      ({((0 : Int), (0 : Int)), ((1 : Int), (0 : Int))} : Finset Cell).card
        = ({((0 : Int), (0 : Int)), ((0 : Int), (1 : Int))} : Finset Cell).card) :=
  ⟨(C8_orientations_count {((0 : Int), (0 : Int)), ((0 : Int), (1 : Int))}).1,
    (C8_orientations_count {((0 : Int), (0 : Int)), ((0 : Int), (1 : Int))}).2
      {((0 : Int), (0 : Int)), ((1 : Int), (0 : Int))} (by decide)⟩

/-- C2 (amended): for every orientation the solver tries exactly the anchor
rows of the half-open range [0, height - max_row) — that is, the inclusive
range [0, height - max_row - 1] — and exactly the anchor columns of
[0, width - max_col); the inclusive upper endpoints height - max_row and
width - max_col claimed by the spec are not tried. -/
theorem C2_anchor_ranges (width height : Nat) (ori : Finset Cell) :
    (∀ sr : Int, sr ∈ anchorRows height ori ↔ 0 ≤ sr ∧ sr < (height : Int) - maxRow ori) ∧
    (∀ sc : Int, sc ∈ anchorCols width ori ↔ 0 ≤ sc ∧ sc < (width : Int) - maxCol ori) :=
  ⟨fun _ => mem_intRange, fun _ => mem_intRange⟩

/-- C2 counterexample: with height 2 and the single-cell orientation
(max_row = 0), the anchor row 2 lies in the claimed inclusive range
[0, height - max_row] = [0, 2], but the solver never tries it. -/
theorem C2_counterexample :
    (0 : Int) ≤ 2 ∧ (2 : Int) ≤ (2 : Int) - maxRow {((0 : Int), (0 : Int))} ∧
      (2 : Int) ∉ anchorRows 2 {((0 : Int), (0 : Int))} := by
  decide

/-- C4: when the cell total the region demands (the code measures each
instance by the size of its shape's first stored orientation) exceeds the
width*height budget, the region verdict is false. -/
theorem C4_budget (width height : Nat) (counts : List Nat)
    (table : Nat → Option (List (Finset Cell))) (needed : Nat)
    (htot : total_cells_needed table (build_shapes_to_place counts) = some needed)
    (hover : width * height < needed) :
    region_verdict width height counts table = some false := by
  simp only [region_verdict, htot]
  rw [if_pos hover]

/-- C4 witness: one domino demanded in a 1x1 region needs 2 cells against a
budget of 1, so the verdict is false. -/
theorem C4_witness : region_verdict 1 1 [1] tblDomino = some false :=
  C4_budget 1 1 [1] tblDomino 2 (by decide) (by decide)

theorem mem_expand_counts :
    ∀ (counts : List Nat) (i sid : Nat), 0 < counts.getD sid 0 →
      (i + sid) ∈ expand_counts i counts := by
  intro counts
  induction counts with
  | nil =>
    intro i sid h
    simp [List.getD] at h
  | cons q rest ih =>
    intro i sid h
    cases sid with
    | zero =>
      rw [expand_counts]
      have hq : 0 < q := by simpa using h
      rw [if_pos hq]
      apply List.mem_append_left
      rw [List.mem_replicate]
      omega
    | succ sid' =>
      rw [expand_counts]
      apply List.mem_append_right
      have hrec := ih (i + 1) sid' (by simpa using h)
      have harith : i + (sid' + 1) = (i + 1) + sid' := by omega
      rw [harith]
      exact hrec

theorem mem_build {counts : List Nat} {sid : Nat} (h : 0 < counts.getD sid 0) :
    sid ∈ build_shapes_to_place counts := by
  have hrec := mem_expand_counts counts 0 sid h
  rw [build_shapes_to_place]
  simpa using hrec

theorem total_cells_needed_none {table : Nat → Option (List (Finset Cell))} :
    ∀ {sids : List Nat} {sid : Nat}, sid ∈ sids → firstOriSize table sid = none →
      total_cells_needed table sids = none := by
  intro sids
  induction sids with
  | nil =>
    intro sid h _
    exact absurd h (List.not_mem_nil sid)
  | cons s rest ih =>
    intro sid hmem hfo
    rw [total_cells_needed]
    rcases List.mem_cons.mp hmem with rfl | hmem
    · rw [hfo]
      rfl
    · cases hfs : firstOriSize table s with
      | none => rfl
      | some n =>
        rw [ih hmem hfo]
        rfl

/-- C9: a demand assigning a positive quantity to a shape id absent from the
orientation table makes the region processing fail fast (the lookup for that
id has no value, so the needed-cells computation raises) and the region gets
no satisfiability verdict. -/
theorem C9_unknown_shape (width height : Nat) (counts : List Nat)
    (table : Nat → Option (List (Finset Cell))) (sid : Nat)
    (hq : 0 < counts.getD sid 0) (ht : table sid = none) :
    region_verdict width height counts table = none := by
  have hmem : sid ∈ build_shapes_to_place counts := mem_build hq
  have hnone : total_cells_needed table (build_shapes_to_place counts) = none := by
    apply total_cells_needed_none hmem
    rw [firstOriSize, ht]
    rfl
  simp only [region_verdict, hnone]

/-- C9 witness: demand of one instance of shape 0 against an empty table
yields no verdict. -/
theorem C9_witness : region_verdict 1 1 [1] (fun _ => none) = none :=
  C9_unknown_shape 1 1 [1] (fun _ => none) 0 (by decide) rfl

/-- C1 (amended): when every stored orientation of a listed shape id is
nonempty and normalized — which is what get_all_orientations yields for
nonempty shapes — solve_region returns true exactly when a simultaneous
non-overlapping placement of all the instances exists, each instance in
some stored orientation of its shape, anchored at a grid position, with
every placed cell inside the height x width grid. -/
theorem C1_solve_region_correct (width height : Nat) (shapes : List Nat)
    (table : Nat → Option (List (Finset Cell))) (hN : OrisNormOK table shapes) :
    solve_region width height shapes table = some true ↔
      IsSolvable width height shapes table := by
  constructor
  · intro hs
    cases shapes with
    | nil => exact ⟨[], List.Forall₂.nil, List.Pairwise.nil⟩
    | cons sid rest =>
      rw [solve_region, if_neg (by simp)] at hs
      cases hbt : backtrack width height table (sid :: rest) ∅ with
      | none =>
        rw [hbt] at hs
        exact Option.noConfusion hs
      | some bg =>
        obtain ⟨b, g₂⟩ := bg
        rw [hbt] at hs
        have hb : b = true := Option.some.inj hs
        subst hb
        obtain ⟨ps, hf2, hpw, -, -⟩ := backtrack_sound _ _ _ hbt
        exact ⟨ps, forall2_ok_of_enum hN hf2, hpw⟩
  · rintro ⟨ps, hf2, hpw⟩
    have hOK : OrisOK table shapes := by
      intro sid hsid
      obtain ⟨pl, hpl, hR⟩ := forall2_mem_left hf2 hsid
      obtain ⟨ors, ht, hmem, -⟩ := id hR
      exact ⟨ors, ht, fun ori hori => (hN sid hsid ors ht ori hori).1⟩
    have hext : ExtOK width height table ∅ shapes := by
      refine ⟨ps, forall2_enum_of_ok hN hf2, hpw, ?_⟩
      intro cs hcs
      exact Finset.disjoint_empty_right cs
    obtain ⟨b, heq, hiff⟩ := solve_region_char hOK
    rw [heq, hiff.mpr hext]

/-- C1 witness: a single one-cell shape in a 1x1 region, with the table
normalized and nonempty as the precondition demands. -/
theorem C1_witness :
    OrisNormOK tblSingle [0] ∧
      (solve_region 1 1 [0] tblSingle = some true ↔ IsSolvable 1 1 [0] tblSingle) := by
  have hN : OrisNormOK tblSingle [0] := by
    intro sid hsid ors ht ori hori
    simp only [List.mem_singleton] at hsid
    subst hsid
    have hts : tblSingle 0 = some [{((0 : Int), (0 : Int))}] := rfl
    rw [hts] at ht
    injection ht with he
    subst he
    simp only [List.mem_singleton] at hori
    subst hori
    exact ⟨by decide, by decide⟩
  exact ⟨hN, C1_solve_region_correct 1 1 [0] tblSingle hN⟩

/-- C1 counterexample: with a table whose stored orientation list for shape
0 is the one holding the empty cell set (exactly what the orientation
generator yields for an empty shape), a simultaneous placement of the single
instance exists — the empty orientation anchored at cell (0,0) covers no
cells — yet solve_region raises on the empty bounding-extent computation
instead of returning true, so the claimed equivalence fails as stated for
arbitrary orientation tables. -/
theorem C1_counterexample :
    solve_region 1 1 [0] tblEmptyOri ≠ some true ∧ IsSolvable 1 1 [0] tblEmptyOri := by
  constructor
  · decide
  · refine ⟨[((∅ : Finset Cell), (0 : Int), (0 : Int))], ?_, ?_⟩
    · refine List.Forall₂.cons ?_ List.Forall₂.nil
      exact ⟨[∅], rfl, by decide, by decide, by decide, by decide, by decide, by decide⟩
    · simp

/-- C5: if a backtracking call returns false, the occupancy grid on return
is identical to the grid on entry (every placement marked along the failed
branch has been unmarked); if it returns true, the committed placements are
left in the grid: the returned grid is exactly the entry grid together with
the cells of one committed search placement per listed instance. -/
theorem C5_backtrack_restores (width height : Nat)
    (table : Nat → Option (List (Finset Cell))) (shapes : List Nat)
    (g : Finset Cell) (b : Bool) (g' : Finset Cell)
    (h : backtrack width height table shapes g = some (b, g')) :
    (b = false → g' = g) ∧
      (b = true → ∃ ps : List (Finset Cell × Int × Int),
        List.Forall₂ (PlacedEnum width height table) shapes ps ∧
        g' = g ∪ unionList (ps.map cellsOf)) := by
  constructor
  · intro hb
    subst hb
    exact backtrack_frame shapes g g' h
  · intro hb
    subst hb
    obtain ⟨ps, hf2, -, -, hg⟩ := backtrack_sound shapes g g' h
    exact ⟨ps, hf2, hg⟩

/-- C5 witness: a concrete successful call leaves exactly the placed cell in
the grid. -/
theorem C5_witness :
    (true = false → ({((0 : Int), (0 : Int))} : Finset Cell) = ∅) ∧
      (true = true → ∃ ps : List (Finset Cell × Int × Int),
        List.Forall₂ (PlacedEnum 1 1 tblSingle) [0] ps ∧
        ({((0 : Int), (0 : Int))} : Finset Cell) = ∅ ∪ unionList (ps.map cellsOf)) :=
  C5_backtrack_restores 1 1 tblSingle [0] ∅ true {((0 : Int), (0 : Int))} (by decide)

/-- C6: a placement is committed only after every one of its cells passes
the unoccupied check — a passing can_place means the covered cells are
disjoint from the currently occupied set — and on any successful search
there is one committed search placement per listed instance (each an
orientation of its shape from the table) whose cell sets are pairwise
disjoint and disjoint from the cells occupied on entry, and the returned
grid is exactly the entry grid plus those cells: at no point do two
simultaneously placed instances share a cell. -/
theorem C6_no_overlap :
    (∀ (width height : Nat) (g ori : Finset Cell) (sr sc : Int),
        can_place width height g ori sr sc = true → Disjoint (offsets ori sr sc) g) ∧
    (∀ (width height : Nat) (table : Nat → Option (List (Finset Cell)))
        (shapes : List Nat) (g g₂ : Finset Cell),
        backtrack width height table shapes g = some (true, g₂) →
        ∃ ps : List (Finset Cell × Int × Int),
          List.Forall₂ (PlacedEnum width height table) shapes ps ∧
          (ps.map cellsOf).Pairwise Disjoint ∧
          (∀ cs ∈ ps.map cellsOf, Disjoint cs g) ∧
          g₂ = g ∪ unionList (ps.map cellsOf)) := by
  constructor
  · exact fun _ _ _ _ _ _ hc => can_place_disjoint hc
  · intro width height table shapes g g₂ hbt
    exact backtrack_sound shapes g g₂ hbt

/-- C6 witness: concrete instances of both parts. -/
theorem C6_witness :
    Disjoint (offsets {((0 : Int), (0 : Int))} 0 0) (∅ : Finset Cell) ∧
      ∃ ps : List (Finset Cell × Int × Int),
        List.Forall₂ (PlacedEnum 1 1 tblSingle) [0] ps ∧
        (ps.map cellsOf).Pairwise Disjoint ∧
        (∀ cs ∈ ps.map cellsOf, Disjoint cs (∅ : Finset Cell)) ∧
        ({((0 : Int), (0 : Int))} : Finset Cell) = ∅ ∪ unionList (ps.map cellsOf) :=
  ⟨C6_no_overlap.1 1 1 ∅ {((0 : Int), (0 : Int))} 0 0 (by decide),
    C6_no_overlap.2 1 1 tblSingle [0] ∅ {((0 : Int), (0 : Int))} (by decide)⟩

/-- C7 (amended): when every listed shape id is present in the table with
all-nonempty orientations (so the search raises no exception), permuting the
shape-instance list never changes the verdict of solve_region; without that
precondition a permutation can turn the verdict false into a raised
exception. -/
theorem C7_order_invariant (width height : Nat)
    (table : Nat → Option (List (Finset Cell))) (l₁ l₂ : List Nat)
    (hperm : l₁.Perm l₂) (hOK : OrisOK table l₁) :
    solve_region width height l₁ table = solve_region width height l₂ table := by
  have hOK2 : OrisOK table l₂ := fun s hs => hOK s (hperm.mem_iff.mpr hs)
  obtain ⟨b1, he1, hi1⟩ := solve_region_char hOK
  obtain ⟨b2, he2, hi2⟩ := solve_region_char hOK2
  rw [he1, he2]
  have hbb : b1 = true ↔ b2 = true := by
    rw [hi1, hi2]
    exact ⟨ExtOK_perm hperm, ExtOK_perm hperm.symm⟩
  cases b1 <;> cases b2 <;> simp_all

/-- C7 witness: swapping a one-cell shape and a domino gives the same
verdict on a 2x2 region. -/
theorem C7_witness :
    ([0, 1] : List Nat).Perm [1, 0] ∧
      solve_region 2 2 [0, 1] tblTwo = solve_region 2 2 [1, 0] tblTwo := by
  refine ⟨by decide, C7_order_invariant 2 2 tblTwo [0, 1] [1, 0] (by decide) ?_⟩
  intro sid hsid
  rcases List.mem_cons.mp hsid with rfl | hsid
  · exact ⟨[{((0 : Int), (0 : Int))}], rfl, by decide⟩
  · rcases List.mem_cons.mp hsid with rfl | hsid
    · exact ⟨[{((0 : Int), (0 : Int)), ((1 : Int), (0 : Int))}], rfl, by decide⟩
    · exact absurd hsid (List.not_mem_nil sid)

/-- C7 counterexample: the verdict is not invariant under permutation for
every orientation table: with shape 0 an unplaceable domino and shape 1
carrying the empty orientation, the order [0, 1] fails cleanly (verdict
false) while [1, 0] raises on the empty orientation and yields no verdict. -/
theorem C7_counterexample :
    ([0, 1] : List Nat).Perm [1, 0] ∧
      solve_region 1 1 [0, 1] tblMixed ≠ solve_region 1 1 [1, 0] tblMixed := by
  decide

/-- C10 (amended): solve_region is total when every listed shape id carries
only nonempty orientations; get_all_orientations of the empty shape is the
singleton holding the empty orientation; when the first listed instance's
orientation list starts with the empty set, the bounding-extent maximum is
taken over no cells and solve_region produces no verdict; an instance whose
only stored orientation is empty rules out the verdict true wherever it
appears in the list, but a later such instance may be preempted by an
earlier failure, so the region can still receive the verdict false. -/
theorem C10_empty_orientation :
    (∀ (width height : Nat) (table : Nat → Option (List (Finset Cell))) (shapes : List Nat),
        OrisOK table shapes → ∃ b, solve_region width height shapes table = some b) ∧
    get_all_orientations ∅ = {∅} ∧
    (∀ (width height : Nat) (table : Nat → Option (List (Finset Cell)))
        (sid : Nat) (rest : List Nat) (ors : List (Finset Cell)),
        table sid = some ors → ors.head? = some ∅ →
        solve_region width height (sid :: rest) table = none) ∧
    (∀ (width height : Nat) (table : Nat → Option (List (Finset Cell)))
        (shapes : List Nat) (sid : Nat), sid ∈ shapes → table sid = some [∅] →
        solve_region width height shapes table ≠ some true) := by
  refine ⟨?_, by decide, ?_, ?_⟩
  · intro width height table shapes hOK
    obtain ⟨b, heq, -⟩ := solve_region_char hOK
    exact ⟨b, heq⟩
  · intro width height table sid rest ors ht hhead
    cases ors with
    | nil => simp at hhead
    | cons o tail =>
      have ho : o = ∅ := by simpa using hhead
      subst ho
      rw [solve_region, if_neg (by simp), backtrack, ht]
      show (tryOris (backtrack width height table rest) width height
        ((∅ : Finset Cell) :: tail) ∅).map Prod.fst = none
      rw [tryOris, if_neg (by simp)]
      rfl
  · intro width height table shapes sid hmem ht htrue
    cases shapes with
    | nil => exact absurd hmem (List.not_mem_nil sid)
    | cons s rest =>
      rw [solve_region, if_neg (by simp)] at htrue
      cases hbt : backtrack width height table (s :: rest) ∅ with
      | none =>
        rw [hbt] at htrue
        exact Option.noConfusion htrue
      | some bg =>
        obtain ⟨b, g₂⟩ := bg
        rw [hbt] at htrue
        have hb : b = true := Option.some.inj htrue
        subst hb
        obtain ⟨ps, hf2, -, -, -⟩ := backtrack_sound _ _ _ hbt
        obtain ⟨pl, -, hR⟩ := forall2_mem_left hf2 hmem
        obtain ⟨ors', ht', hmem', hne', -⟩ := hR
        rw [ht] at ht'
        injection ht' with he
        subst he
        simp only [List.mem_singleton] at hmem'
        rw [hmem'] at hne'
        exact absurd hne' (by simp)

/-- C10 witness: totality on a well-formed table; crash when the first
instance's orientation list starts empty; no true verdict when some
instance's only orientation is empty. -/
theorem C10_witness :
    (∃ b, solve_region 1 1 [0] tblSingle = some b) ∧
      solve_region 1 1 [0] tblEmptyOri = none ∧
      solve_region 1 1 [0, 1] tblMixed ≠ some true := by
  refine ⟨C10_empty_orientation.1 1 1 tblSingle [0] ?_,
    C10_empty_orientation.2.2.1 1 1 tblEmptyOri 0 [] [∅] rfl rfl,
    C10_empty_orientation.2.2.2 1 1 tblMixed [0, 1] 1 (by decide) rfl⟩
  intro sid hsid
  simp only [List.mem_singleton] at hsid
  subst hsid
  exact ⟨[{((0 : Int), (0 : Int))}], rfl, by decide⟩

/-- C10 counterexample: instance 1's only stored orientation is the empty
set and the instance list is non-empty, yet solve_region still produces a
verdict (false), because the search fails on instance 0 before reaching
instance 1 — so an empty orientation does not always prevent a verdict. -/
theorem C10_counterexample :
    tblMixed 1 = some [∅] ∧ solve_region 1 1 [0, 1] tblMixed = some false :=
  ⟨rfl, by decide⟩

end DayTwelve
